import Mathlib

/-!
Shallow embedding of the color-extraction core of `src/backend/src/app/api/colors.py`
(k-means++ seeding, Lloyd's-algorithm loop, percentage/hex aggregation).

Modelling conventions:
* numpy `float64` pixel vectors become exact rationals (triples `ℚ × ℚ × ℚ`);
  overflow and rounding are not relevant to any claim, but NaN is: the one place
  the Python code can produce NaN (the division `distances / distances.sum()`
  when the sum is zero, which makes `rng.choice` raise `ValueError`) is modelled
  by an `Option` failure (`none`).
* `np.random.default_rng(seed)` is modelled as a deterministic stream of
  naturals derived from the seed.  The exact PCG64 bitstream is outside the
  embedding; the claims depend only on the draws being a deterministic function
  of the seed, in range, and consumed sequentially.
* Image decoding and resizing (lines 85-95 of the source) are out of scope per
  the spec ("treated as external collaborators that supply a flat array of
  pixel color vectors"); `extract_colors_from_image` is modelled from the
  flattened pixel array onward (source lines 95-126).
-/

namespace Colors

/-- A pixel / center: an RGB triple, exact rationals in place of float64. -/
abbrev Pixel := ℚ × ℚ × ℚ

/-- Squared Euclidean distance `np.sum((p - c) ** 2)` between two RGB triples. -/
def sqDist (p c : Pixel) : ℚ :=
  (p.1 - c.1) ^ 2 + (p.2.1 - c.2.1) ^ 2 + (p.2.2 - c.2.2) ^ 2

/-- `np.min` of a list of rationals (the list is nonempty at every use site). -/
def listMin : List ℚ → ℚ
  | [] => 0
  | x :: xs => xs.foldl min x

/-- Deterministic seeded random source: a stream of raw naturals plus a cursor.
Models the sequentially-consumed `np.random.Generator`. -/
structure Rng where
  stream : ℕ → ℕ
  pos : ℕ

/-- Draw the next raw natural from the stream. -/
def Rng.next (r : Rng) : ℕ × Rng :=
  (r.stream r.pos, ⟨r.stream, r.pos + 1⟩)

/-- Models `rng.integers(n)`: a draw in `[0, n)` (for `n > 0`). -/
def Rng.integers (r : Rng) (n : ℕ) : ℕ × Rng :=
  let (v, r') := r.next
  (v % n, r')

/-- Denominator used to turn a raw draw into a uniform rational in `[0, 1)`
(53 bits, the precision of a float64 uniform draw). -/
def floatDenom : ℕ := 2 ^ 53

/-- Models drawing a uniform float64 in `[0, 1)` from the generator. -/
def Rng.uniform (r : Rng) : ℚ × Rng :=
  let (v, r') := r.next
  (((v % floatDenom : ℕ) : ℚ) / (floatDenom : ℚ), r')

/-- Invert the cumulative distribution of the weight list `ws` at `u`:
the first index `i` with `u < ws[0] + ... + ws[i]` (equals `ws.length` when
`u` is at least the total weight). -/
def cumChoose (u : ℚ) : List ℚ → ℕ
  | [] => 0
  | w :: ws => if u < w then 0 else cumChoose (u - w) ws + 1

/-- Models `rng.choice(n_samples, p=probabilities)` with `n_samples = p.length`:
draw a uniform rational and invert the cumulative distribution of `p`. -/
def Rng.choice (r : Rng) (p : List ℚ) : ℕ × Rng :=
  let (u, r') := r.uniform
  (cumChoose u p, r')

/-- Model of `np.random.default_rng(seed)`: a deterministic entropy stream
derived from the seed (a linear congruential mix; the concrete PCG64 bitstream
is outside the embedding). -/
def defaultRng (seed : ℕ) : Rng :=
  ⟨fun i => (1103515245 * (seed + i) + 12345) % 2 ^ 31, 0⟩

/-- `np.min([np.sum((pixels - c) ** 2, axis=1) for c in centers], axis=0)`:
for every pixel, the squared distance to its nearest already-chosen center. -/
def nearestDistances (pixels centers : List Pixel) : List ℚ :=
  pixels.map fun p => listMin (centers.map fun c => sqDist p c)

/-- One round per remaining center of the `for _ in range(1, n_clusters)` loop
of `kmeans_plusplus_init`.  When `distances.sum()` is zero the division
`distances / distances.sum()` produces NaN probabilities and `rng.choice`
raises `ValueError`; that failure is modelled by `none`.  The out-of-range
lookup branch is unreachable (proved below) and also maps to `none`. -/
def kppRounds (pixels : List Pixel) : ℕ → List Pixel → Rng → Option (List Pixel)
  | 0, centers, _ => some centers
  | rounds + 1, centers, r =>
    let distances := nearestDistances pixels centers
    if distances.sum = 0 then
      none
    else
      let probabilities := distances.map fun d => d / distances.sum
      let (nextIdx, r') := r.choice probabilities
      match pixels.get? nextIdx with
      | none => none
      | some c => kppRounds pixels rounds (centers ++ [c]) r'

/-- `kmeans_plusplus_init(pixels, n_clusters, rng)` (source lines 19-44):
choose the first center uniformly at random, then `n_clusters - 1` rounds of
distance-weighted selection.  `none` models an uncaught exception. -/
def kmeans_plusplus_init (pixels : List Pixel) (nClusters : ℕ) (rng : Rng) :
    Option (List Pixel) :=
  let (firstIdx, r1) := rng.integers pixels.length
  match pixels.get? firstIdx with
  | none => none
  | some c => kppRounds pixels (nClusters - 1) [c] r1

/-- Index of the first minimum of `x` and the tail `xs`, together with the
minimal value: the semantics of `np.argmin` on the nonempty list `x :: xs`
(ties are won by the lowest index). -/
def minWithIdx : ℚ → List ℚ → ℚ × ℕ
  | x, [] => (x, 0)
  | x, y :: ys =>
    let (m, i) := minWithIdx y ys
    if m < x then (m, i + 1) else (x, 0)

/-- `np.argmin` on a list of rationals: index of the first occurrence of the
minimum (`0` on the empty list, which never arises in use). -/
def argminList : List ℚ → ℕ
  | [] => 0
  | x :: xs => (minWithIdx x xs).2

/-- Assignment phase (source lines 61-62): for every pixel the index of the
nearest center, lowest index winning ties. -/
def assignLabels (pixels centers : List Pixel) : List ℕ :=
  pixels.map fun p => argminList (centers.map fun c => sqDist p c)

/-- `pixels[labels == j]`: the pixels currently labelled `j`. -/
def assignedPixels (pixels : List Pixel) (labels : List ℕ) (j : ℕ) : List Pixel :=
  (pixels.zip labels).filterMap fun q => if q.2 = j then some q.1 else none

/-- `.mean(axis=0)`: componentwise mean of a list of pixels (only ever applied
to nonempty lists, see the guard in `updateCenters`). -/
def centroid (ps : List Pixel) : Pixel :=
  (((ps.map fun p => p.1).sum) / (ps.length : ℚ),
   ((ps.map fun p => p.2.1).sum) / (ps.length : ℚ),
   ((ps.map fun p => p.2.2).sum) / (ps.length : ℚ))

/-- Update phase (source lines 64-68): each cluster's center becomes the mean
of its assigned pixels if it has any, and keeps its previous value otherwise. -/
def updateCenters (pixels : List Pixel) (labels : List ℕ) (centers : List Pixel)
    (nClusters : ℕ) : List Pixel :=
  (List.range nClusters).map fun j =>
    if assignedPixels pixels labels j ≠ [] then centroid (assignedPixels pixels labels j)
    else centers.getD j (0, 0, 0)

/-- `np.allclose` default relative tolerance `rtol = 1e-5`. -/
def rtolQ : ℚ := 1 / 100000

/-- `np.allclose` default absolute tolerance `atol = 1e-8`. -/
def atolQ : ℚ := 1 / 100000000

/-- One component of the `np.allclose` test: `|a - b| <= atol + rtol * |b|`. -/
def closeComp (a b : ℚ) : Bool :=
  decide (|a - b| ≤ atolQ + rtolQ * |b|)

/-- `np.allclose` on one pixel pair: all three components close. -/
def closePix (a b : Pixel) : Bool :=
  closeComp a.1 b.1 && closeComp a.2.1 b.2.1 && closeComp a.2.2 b.2.2

/-- `np.allclose(centers, new_centers)` on equally-shaped center arrays. -/
def allclose (as bs : List Pixel) : Bool :=
  (as.zip bs).all fun q => closePix q.1 q.2

/-- Result of the `for _ in range(max_iterations)` loop of `kmeans`:
final centers, the labels bound by the last executed iteration (`none` when no
iteration ran, modelling the `NameError` on an unbound `labels`), and the
number of iterations executed (instrumentation; `kmeans` discards it). -/
structure LoopResult where
  centers : List Pixel
  labels : Option (List ℕ)
  iters : ℕ

/-- The loop of `kmeans` (source lines 59-76), recursing on the remaining
iteration budget.  On convergence (`np.allclose`) the loop breaks *before*
`centers = new_centers`, so the pre-update centers are returned; when the
budget runs out the last update's centers are returned. -/
def kmeansLoop (pixels : List Pixel) (nClusters : ℕ) :
    List Pixel → Option (List ℕ) → ℕ → LoopResult
  | centers, last, 0 => ⟨centers, last, 0⟩
  | centers, _, fuel + 1 =>
    let labels := assignLabels pixels centers
    let newCenters := updateCenters pixels labels centers nClusters
    if allclose centers newCenters then
      ⟨centers, some labels, 1⟩
    else
      let r := kmeansLoop pixels nClusters newCenters (some labels) fuel
      ⟨r.centers, r.labels, r.iters + 1⟩

/-- Ghost observer on the loop of `kmeans`: the centers as they stood at the
start of the last iteration the loop executes with the given budget (the
centers against which the returned labels were computed). -/
def lastIterStart (pixels : List Pixel) (nClusters : ℕ) :
    List Pixel → ℕ → List Pixel
  | centers, 0 => centers
  | centers, fuel + 1 =>
    let newCenters := updateCenters pixels (assignLabels pixels centers) centers nClusters
    if allclose centers newCenters then centers
    else if fuel = 0 then centers
    else lastIterStart pixels nClusters newCenters fuel

/-- `kmeans(pixels, n_clusters, max_iterations, random_state)` (source lines
47-76).  `none` models an uncaught exception (NaN probabilities in seeding, or
`max_iterations = 0` leaving `labels` unbound). -/
def kmeans (pixels : List Pixel) (nClusters maxIterations randomState : ℕ) :
    Option (List Pixel × List ℕ) :=
  let rng := defaultRng randomState
  match kmeans_plusplus_init pixels nClusters rng with
  | none => none
  | some centers =>
    let r := kmeansLoop pixels nClusters centers none maxIterations
    match r.labels with
    | none => none
    | some ls => some (r.centers, ls)

/-- Number of assignment/update iterations the `kmeans` loop executes
(instrumentation observer; `0` when seeding fails before the loop). -/
def kmeansIterationCount (pixels : List Pixel) (nClusters maxIterations randomState : ℕ) : ℕ :=
  match kmeans_plusplus_init pixels nClusters (defaultRng randomState) with
  | none => 0
  | some centers => (kmeansLoop pixels nClusters centers none maxIterations).iters

/-- `.astype(int)` on a float64 component: truncation toward zero. -/
def truncToInt (q : ℚ) : ℤ :=
  if 0 ≤ q then ⌊q⌋ else ⌈q⌉

/-- `max(0, min(255, v))` (source lines 108-110). -/
def clamp255 (z : ℤ) : ℤ :=
  max 0 (min 255 z)

/-- Lowercase hexadecimal digit for `n < 16` (`'0'..'9'`, `'a'..'f'`). -/
def hexDigitChar (n : ℕ) : Char :=
  if n < 10 then Char.ofNat (48 + n) else Char.ofNat (87 + n)

/-- `f'{n:02x}'` for `0 ≤ n ≤ 255`: exactly two lowercase hex digits. -/
def twoHex (n : ℕ) : List Char :=
  [hexDigitChar (n / 16 % 16), hexDigitChar (n % 16)]

/-- `f'#{r:02x}{g:02x}{b:02x}'` (source line 112), on already-clamped values. -/
def hexColor (r g b : ℤ) : String :=
  ⟨'#' :: (twoHex r.toNat ++ twoHex g.toNat ++ twoHex b.toNat)⟩

/-- `ExtractedColor` response record: hex string plus pixel-share percentage. -/
structure ExtractedColor where
  hex : String
  percentage : ℚ
deriving DecidableEq

/-- The `ExtractedColor` built for one `cluster_id` (source lines 105-121):
truncate, clamp and hex-encode the center, and report
`counts[idx] / total_pixels * 100` when the cluster occurs among the labels
and `0.0` otherwise. -/
def colorOfCluster (centers : List Pixel) (labels : List ℕ) (total : ℕ) (j : ℕ) :
    ExtractedColor :=
  let c := centers.getD j (0, 0, 0)
  let r := clamp255 (truncToInt c.1)
  let g := clamp255 (truncToInt c.2.1)
  let b := clamp255 (truncToInt c.2.2)
  let percentage : ℚ :=
    if 0 < labels.count j then ((labels.count j : ℚ) / (total : ℚ)) * 100 else 0
  ⟨hexColor r g b, percentage⟩

/-- The unsorted per-cluster results list (source lines 104-121). -/
def aggregateResults (centers : List Pixel) (labels : List ℕ) (numColors : ℕ) :
    List ExtractedColor :=
  (List.range numColors).map (colorOfCluster centers labels labels.length)

/-- `results.sort(key=lambda x: x.percentage, reverse=True)`: stable sort by
percentage, descending. -/
def sortByPercentageDesc (cs : List ExtractedColor) : List ExtractedColor :=
  List.insertionSort (fun a b => b.percentage ≤ a.percentage) cs

/-- `extract_colors_from_image` (source lines 79-126) from the flattened pixel
array onward; image decoding/resizing is out of scope per the spec.  Always
invokes `kmeans` with its defaults `max_iterations = 100`, `random_state = 42`. -/
def extract_colors_from_image (pixels : List Pixel) (numColors : ℕ) :
    Option (List ExtractedColor) :=
  match kmeans pixels numColors 100 42 with
  | none => none
  | some (centers, labels) =>
    some (sortByPercentageDesc (aggregateResults centers labels numColors))

/-- The sixteen lowercase hexadecimal digit characters. -/
def hexDigitChars : List Char :=
  "0123456789abcdef".data

/-- Well-formedness of an output color string: `'#'` followed by exactly six
lowercase hexadecimal digits. -/
def isHexColorString (s : String) : Prop :=
  s.length = 7 ∧ s.data.take 1 = ['#'] ∧ ∀ ch ∈ s.data.drop 1, ch ∈ hexDigitChars

unseal Rat.mul Rat.add Rat.sub Rat.inv

theorem sqDist_nonneg (p c : Pixel) : 0 ≤ sqDist p c := by
  have h1 := sq_nonneg (p.1 - c.1)
  have h2 := sq_nonneg (p.2.1 - c.2.1)
  have h3 := sq_nonneg (p.2.2 - c.2.2)
  simp only [sqDist]
  linarith

theorem sqDist_pos_of_ne {p c : Pixel} (h : p ≠ c) : 0 < sqDist p c := by
  rcases lt_or_eq_of_le (sqDist_nonneg p c) with hlt | heq
  · exact hlt
  · exfalso
    apply h
    have h1 := sq_nonneg (p.1 - c.1)
    have h2 := sq_nonneg (p.2.1 - c.2.1)
    have h3 := sq_nonneg (p.2.2 - c.2.2)
    simp only [sqDist] at heq
    have e1 : (p.1 - c.1) ^ 2 = 0 := by linarith
    have e2 : (p.2.1 - c.2.1) ^ 2 = 0 := by linarith
    have e3 : (p.2.2 - c.2.2) ^ 2 = 0 := by linarith
    have f1 : p.1 = c.1 := by
      have := sq_eq_zero_iff.mp e1
      linarith
    have f2 : p.2.1 = c.2.1 := by
      have := sq_eq_zero_iff.mp e2
      linarith
    have f3 : p.2.2 = c.2.2 := by
      have := sq_eq_zero_iff.mp e3
      linarith
    exact Prod.ext f1 (Prod.ext f2 f3)

theorem sqDist_self (c : Pixel) : sqDist c c = 0 := by
  simp [sqDist]

theorem foldl_min_choice : ∀ (xs : List ℚ) (x : ℚ), xs.foldl min x = x ∨ xs.foldl min x ∈ xs := by
  intro xs
  induction xs with
  | nil => intro x; left; rfl
  | cons y ys ih =>
    intro x
    rw [List.foldl_cons]
    rcases ih (min x y) with h | h
    · rcases min_choice x y with hm | hm
      · left; rw [h, hm]
      · right; rw [h, hm]; exact List.mem_cons_self y ys
    · right; exact List.mem_cons_of_mem y h

theorem listMin_mem : ∀ {l : List ℚ}, l ≠ [] → listMin l ∈ l := by
  intro l h
  match l with
  | x :: xs =>
    rcases foldl_min_choice xs x with h1 | h1
    · rw [listMin, h1]; exact List.mem_cons_self x xs
    · rw [listMin]; exact List.mem_cons_of_mem x h1

theorem list_sum_pos {l : List ℚ} (hall : ∀ x ∈ l, 0 ≤ x) {y : ℚ} (hy : y ∈ l)
    (hypos : 0 < y) : 0 < l.sum := by
  induction l with
  | nil => simp at hy
  | cons a as ih =>
    rw [List.sum_cons]
    rcases List.mem_cons.mp hy with rfl | hmem
    · have hs : 0 ≤ as.sum := List.sum_nonneg fun x hx => hall x (List.mem_cons_of_mem _ hx)
      linarith
    · have ha := hall a (List.mem_cons_self _ _)
      have hs := ih (fun x hx => hall x (List.mem_cons_of_mem _ hx)) hmem
      linarith

theorem cumChoose_lt : ∀ (ws : List ℚ) (u : ℚ), 0 ≤ u → u < ws.sum →
    cumChoose u ws < ws.length := by
  intro ws
  induction ws with
  | nil =>
    intro u h0 h
    rw [List.sum_nil] at h
    linarith
  | cons w xs ih =>
    intro u h0 h
    by_cases hu : u < w
    · simp [cumChoose, hu]
    · rw [List.sum_cons] at h
      have h1 : 0 ≤ u - w := sub_nonneg.mpr (not_lt.mp hu)
      have h2 : u - w < xs.sum := by linarith
      simp only [cumChoose, if_neg hu, List.length_cons]
      exact Nat.succ_lt_succ (ih (u - w) h1 h2)

theorem map_div_sum (l : List ℚ) (h : l.sum ≠ 0) : (l.map fun d => d / l.sum).sum = 1 := by
  have e : (l.map fun d => d / l.sum) = l.map fun d => d * (l.sum)⁻¹ := by
    simp [div_eq_mul_inv]
  rw [e]
  have e2 := List.sum_map_mul_right l (fun d => d) (l.sum)⁻¹
  simp only at e2
  rw [e2, List.map_id']
  exact mul_inv_cancel₀ h

theorem uniform_fst_nonneg (r : Rng) : 0 ≤ (r.uniform).1 := by
  simp only [Rng.uniform, Rng.next]
  positivity

theorem uniform_fst_lt_one (r : Rng) : (r.uniform).1 < 1 := by
  simp only [Rng.uniform, Rng.next]
  rw [div_lt_one (by norm_num [floatDenom])]
  exact_mod_cast Nat.mod_lt _ (by norm_num [floatDenom])

theorem minWithIdx_snd_le : ∀ (xs : List ℚ) (x : ℚ), (minWithIdx x xs).2 ≤ xs.length := by
  intro xs
  induction xs with
  | nil => intro x; simp [minWithIdx]
  | cons y ys ih =>
    intro x
    rcases hmi : minWithIdx y ys with ⟨m, i⟩
    have h := ih y
    rw [hmi] at h
    simp only [minWithIdx, hmi, List.length_cons]
    by_cases hc : m < x
    · simp only [if_pos hc]
      omega
    · simp only [if_neg hc]
      omega

theorem minWithIdx_getD : ∀ (xs : List ℚ) (x : ℚ),
    (x :: xs).getD (minWithIdx x xs).2 0 = (minWithIdx x xs).1 := by
  intro xs
  induction xs with
  | nil => intro x; simp [minWithIdx]
  | cons y ys ih =>
    intro x
    rcases hmi : minWithIdx y ys with ⟨m, i⟩
    have h := ih y
    rw [hmi] at h
    simp only [minWithIdx, hmi]
    by_cases hc : m < x
    · simp only [if_pos hc]
      rw [List.getD_cons_succ]
      exact h
    · simp [hc]

theorem minWithIdx_fst_le : ∀ (xs : List ℚ) (x : ℚ) (j : ℕ), j < xs.length + 1 →
    (minWithIdx x xs).1 ≤ (x :: xs).getD j 0 := by
  intro xs
  induction xs with
  | nil =>
    intro x j hj
    have hj0 : j = 0 := Nat.lt_one_iff.mp (by simpa using hj)
    subst hj0
    simp [minWithIdx]
  | cons y ys ih =>
    intro x j hj
    rcases hmi : minWithIdx y ys with ⟨m, i⟩
    simp only [minWithIdx, hmi]
    match j with
    | 0 =>
      rw [List.getD_cons_zero]
      by_cases hc : m < x
      · simp only [if_pos hc]
        exact le_of_lt hc
      · simp [hc]
    | j' + 1 =>
      have hj' : j' < ys.length + 1 := by
        simp only [List.length_cons] at hj
        omega
      have h2 := ih y j' hj'
      rw [hmi] at h2
      rw [List.getD_cons_succ]
      by_cases hc : m < x
      · simp only [if_pos hc]
        exact h2
      · simp only [if_neg hc]
        exact le_trans (not_lt.mp hc) h2

theorem minWithIdx_fst_lt : ∀ (xs : List ℚ) (x : ℚ) (j : ℕ), j < (minWithIdx x xs).2 →
    (minWithIdx x xs).1 < (x :: xs).getD j 0 := by
  intro xs
  induction xs with
  | nil =>
    intro x j hj
    simp [minWithIdx] at hj
  | cons y ys ih =>
    intro x j hj
    rcases hmi : minWithIdx y ys with ⟨m, i⟩
    simp only [minWithIdx, hmi] at hj ⊢
    by_cases hc : m < x
    · simp only [if_pos hc] at hj ⊢
      match j with
      | 0 =>
        rw [List.getD_cons_zero]
        exact hc
      | j' + 1 =>
        have h2 := ih y j'
        rw [hmi] at h2
        rw [List.getD_cons_succ]
        exact h2 (by omega)
    · simp only [if_neg hc] at hj
      omega

theorem argminList_lt : ∀ {l : List ℚ}, l ≠ [] → argminList l < l.length := by
  intro l h
  match l with
  | x :: xs =>
    have := minWithIdx_snd_le xs x
    simp only [argminList, List.length_cons]
    omega

theorem argminList_getD_le : ∀ {l : List ℚ}, ∀ j, j < l.length →
    l.getD (argminList l) 0 ≤ l.getD j 0 := by
  intro l j hj
  match l with
  | x :: xs =>
    simp only [argminList]
    rw [minWithIdx_getD xs x]
    exact minWithIdx_fst_le xs x j (by simpa using hj)

theorem argminList_getD_lt : ∀ {l : List ℚ}, ∀ j, j < argminList l →
    l.getD (argminList l) 0 < l.getD j 0 := by
  intro l j hj
  match l with
  | [] => simp [argminList] at hj
  | x :: xs =>
    simp only [argminList] at hj ⊢
    rw [minWithIdx_getD xs x]
    exact minWithIdx_fst_lt xs x j hj

theorem assignLabels_length (pixels centers : List Pixel) :
    (assignLabels pixels centers).length = pixels.length := by
  simp [assignLabels]

theorem updateCenters_length (pixels : List Pixel) (labels : List ℕ) (centers : List Pixel)
    (n : ℕ) : (updateCenters pixels labels centers n).length = n := by
  simp [updateCenters]

theorem range_map_getD {α : Type} {n j : ℕ} (f : ℕ → α) (d : α) (hj : j < n) :
    ((List.range n).map f).getD j d = f j := by
  show (((List.range n).map f).get? j).getD d = f j
  rw [List.get?_map, List.get?_range hj]
  rfl

theorem map_getD {α β : Type} (l : List α) (f : α → β) (dβ : β) (dα : α) {j : ℕ}
    (hj : j < l.length) : (l.map f).getD j dβ = f (l.getD j dα) := by
  have h1 : l.getD j dα = l.get ⟨j, hj⟩ := by
    show (l.get? j).getD dα = _
    rw [List.get?_eq_get hj]
    rfl
  rw [h1]
  show ((l.map f).get? j).getD dβ = _
  rw [List.get?_map, List.get?_eq_get hj]
  rfl

theorem updateCenters_getD (pixels : List Pixel) (labels : List ℕ) (centers : List Pixel)
    {n j : ℕ} (hj : j < n) :
    (updateCenters pixels labels centers n).getD j (0, 0, 0) =
      if assignedPixels pixels labels j ≠ [] then centroid (assignedPixels pixels labels j)
      else centers.getD j (0, 0, 0) := by
  rw [updateCenters, range_map_getD _ _ hj]

theorem nearestDistances_length (pixels centers : List Pixel) :
    (nearestDistances pixels centers).length = pixels.length := by
  simp [nearestDistances]

theorem nearestDistances_nonneg {pixels centers : List Pixel} (hc : centers ≠ []) :
    ∀ d ∈ nearestDistances pixels centers, 0 ≤ d := by
  intro d hd
  rcases List.mem_map.mp hd with ⟨p, _, rfl⟩
  have hne : centers.map (fun c => sqDist p c) ≠ [] := by
    simpa [List.map_eq_nil_iff] using hc
  rcases List.mem_map.mp (listMin_mem hne) with ⟨c, _, he⟩
  rw [← he]
  exact sqDist_nonneg p c

theorem nearestDistances_pos_of_notmem {pixels centers : List Pixel} (hc : centers ≠ [])
    {p : Pixel} (hp : p ∈ pixels) (hnot : ∀ c ∈ centers, p ≠ c) :
    ∃ d ∈ nearestDistances pixels centers, 0 < d := by
  refine ⟨listMin (centers.map fun c => sqDist p c), List.mem_map_of_mem _ hp, ?_⟩
  have hne : centers.map (fun c => sqDist p c) ≠ [] := by
    simpa [List.map_eq_nil_iff] using hc
  rcases List.mem_map.mp (listMin_mem hne) with ⟨c, hcmem, he⟩
  rw [← he]
  exact sqDist_pos_of_ne (hnot c hcmem)

theorem kppRounds_succ_eq (pixels : List Pixel) (rounds : ℕ) (centers : List Pixel) (r : Rng) :
    kppRounds pixels (rounds + 1) centers r =
      if (nearestDistances pixels centers).sum = 0 then none
      else
        match pixels.get? (cumChoose (r.uniform).1
            ((nearestDistances pixels centers).map fun d =>
              d / (nearestDistances pixels centers).sum)) with
        | none => none
        | some c => kppRounds pixels rounds (centers ++ [c]) (r.uniform).2 := by
  rfl

theorem kppRounds_some_spec (pixels : List Pixel) :
    ∀ (rounds : ℕ) (centers : List Pixel) (r : Rng) (cs : List Pixel),
      kppRounds pixels rounds centers r = some cs →
      cs.length = centers.length + rounds ∧ cs.take centers.length = centers ∧
        ∀ x ∈ cs, x ∈ centers ∨ x ∈ pixels := by
  intro rounds
  induction rounds with
  | zero =>
    intro centers r cs h
    simp only [kppRounds] at h
    cases h
    refine ⟨by simp, List.take_length centers, fun x hx => Or.inl hx⟩
  | succ rounds ih =>
    intro centers r cs h
    rw [kppRounds_succ_eq] at h
    by_cases hs : (nearestDistances pixels centers).sum = 0
    · rw [if_pos hs] at h
      cases h
    · rw [if_neg hs] at h
      rcases hget : pixels.get? (cumChoose (r.uniform).1
          ((nearestDistances pixels centers).map fun d =>
            d / (nearestDistances pixels centers).sum)) with _ | c
      · rw [hget] at h
        cases h
      · rw [hget] at h
        obtain ⟨hlen, htake, hmem⟩ := ih (centers ++ [c]) (r.uniform).2 cs h
        have hc : c ∈ pixels := List.get?_mem hget
        refine ⟨?_, ?_, ?_⟩
        · rw [hlen]
          simp only [List.length_append, List.length_singleton]
          omega
        · have h1 : cs.take centers.length = (cs.take (centers ++ [c]).length).take centers.length := by
            rw [List.take_take]
            congr 1
            simp only [List.length_append, List.length_singleton]
            omega
          rw [h1, htake]
          exact List.take_left centers [c]
        · intro x hx
          rcases hmem x hx with hin | hin
          · rcases List.mem_append.mp hin with h2 | h2
            · exact Or.inl h2
            · right
              rw [List.mem_singleton.mp h2]
              exact hc
          · exact Or.inr hin

theorem kppRounds_success (pixels : List Pixel) :
    ∀ (rounds : ℕ) (centers : List Pixel) (r : Rng),
      centers ≠ [] → (∀ c ∈ centers, c ∈ pixels) →
      centers.length + rounds ≤ pixels.toFinset.card →
      ∃ cs, kppRounds pixels rounds centers r = some cs := by
  intro rounds
  induction rounds with
  | zero =>
    intro centers r _ _ _
    exact ⟨centers, rfl⟩
  | succ rounds ih =>
    intro centers r hne hsub hcard
    have hfresh : ∃ p ∈ pixels, ∀ c ∈ centers, p ≠ c := by
      by_contra hcon
      push_neg at hcon
      have hsubset : pixels.toFinset ⊆ centers.toFinset := by
        intro x hx
        rcases hcon x (List.mem_toFinset.mp hx) with ⟨c, hcmem, rfl⟩
        exact List.mem_toFinset.mpr hcmem
      have h1 : pixels.toFinset.card ≤ centers.toFinset.card := Finset.card_le_card hsubset
      have h2 : centers.toFinset.card ≤ centers.length := List.toFinset_card_le centers
      omega
    obtain ⟨p, hp, hpnot⟩ := hfresh
    obtain ⟨d, hdmem, hdpos⟩ := nearestDistances_pos_of_notmem hne hp hpnot
    have hsum : 0 < (nearestDistances pixels centers).sum :=
      list_sum_pos (nearestDistances_nonneg hne) hdmem hdpos
    rw [kppRounds_succ_eq, if_neg hsum.ne']
    have hprobs : ((nearestDistances pixels centers).map fun x =>
        x / (nearestDistances pixels centers).sum).sum = 1 :=
      map_div_sum _ hsum.ne'
    have hidx : cumChoose (r.uniform).1
        ((nearestDistances pixels centers).map fun x =>
          x / (nearestDistances pixels centers).sum) < pixels.length := by
      have hlt := cumChoose_lt
        ((nearestDistances pixels centers).map fun x =>
          x / (nearestDistances pixels centers).sum)
        (r.uniform).1 (uniform_fst_nonneg r)
        (by rw [hprobs]; exact uniform_fst_lt_one r)
      simpa [nearestDistances_length] using hlt
    rw [List.get?_eq_get hidx]
    apply ih (centers ++ [pixels.get ⟨_, hidx⟩]) (r.uniform).2
    · simp
    · intro c hc
      rcases List.mem_append.mp hc with h2 | h2
      · exact hsub c h2
      · rw [List.mem_singleton.mp h2]
        exact List.get_mem pixels _ hidx
    · simp only [List.length_append, List.length_singleton]
      omega

theorem kmeans_plusplus_init_some_spec {pixels : List Pixel} {k : ℕ} {rng : Rng}
    {cs : List Pixel} (hk : 1 ≤ k) (h : kmeans_plusplus_init pixels k rng = some cs) :
    cs.length = k ∧ ∀ x ∈ cs, x ∈ pixels := by
  simp only [kmeans_plusplus_init, Rng.integers, Rng.next] at h
  rcases hget : pixels.get? (rng.stream rng.pos % pixels.length) with _ | c
  · rw [hget] at h
    cases h
  · rw [hget] at h
    obtain ⟨hlen, _, hmem⟩ := kppRounds_some_spec pixels (k - 1) [c] _ cs h
    have hc : c ∈ pixels := List.get?_mem hget
    constructor
    · rw [hlen]
      simp only [List.length_singleton]
      omega
    · intro x hx
      rcases hmem x hx with h2 | h2
      · rw [List.mem_singleton.mp h2]
        exact hc
      · exact h2

theorem kmeansLoop_iters_le (pixels : List Pixel) (n : ℕ) :
    ∀ (fuel : ℕ) (centers : List Pixel) (last : Option (List ℕ)),
      (kmeansLoop pixels n centers last fuel).iters ≤ fuel := by
  intro fuel
  induction fuel with
  | zero => intro centers last; exact le_refl 0
  | succ fuel ih =>
    intro centers last
    simp only [kmeansLoop]
    split
    · exact Nat.succ_le_succ (Nat.zero_le fuel)
    · exact Nat.succ_le_succ (ih _ _)

theorem kmeansLoop_one_le_iters (pixels : List Pixel) (n : ℕ) (centers : List Pixel)
    (last : Option (List ℕ)) {fuel : ℕ} (hf : 1 ≤ fuel) :
    1 ≤ (kmeansLoop pixels n centers last fuel).iters := by
  match fuel with
  | f + 1 =>
    simp only [kmeansLoop]
    split
    · exact le_refl 1
    · exact Nat.succ_le_succ (Nat.zero_le _)

theorem closePix_iff (a b : Pixel) : closePix a b = true ↔
    (|a.1 - b.1| ≤ atolQ + rtolQ * |b.1| ∧ |a.2.1 - b.2.1| ≤ atolQ + rtolQ * |b.2.1| ∧
     |a.2.2 - b.2.2| ≤ atolQ + rtolQ * |b.2.2|) := by
  simp [closePix, closeComp, Bool.and_eq_true, and_assoc]

theorem allclose_iff : ∀ (as bs : List Pixel), as.length = bs.length →
    (allclose as bs = true ↔
      ∀ j, j < as.length → closePix (as.getD j (0, 0, 0)) (bs.getD j (0, 0, 0)) = true) := by
  intro as
  induction as with
  | nil =>
    intro bs h
    simp [allclose]
  | cons a as ih =>
    intro bs h
    match bs with
    | [] => simp at h
    | b :: bs =>
      simp only [List.length_cons] at h
      have hlen : as.length = bs.length := by omega
      constructor
      · intro hall j hj
        rw [allclose, List.zip_cons_cons, List.all_cons, Bool.and_eq_true] at hall
        match j with
        | 0 => simpa using hall.1
        | j' + 1 =>
          rw [List.getD_cons_succ, List.getD_cons_succ]
          exact ((ih bs hlen).mp hall.2) j' (by simpa using hj)
      · intro hto
        rw [allclose, List.zip_cons_cons, List.all_cons, Bool.and_eq_true]
        constructor
        · simpa using hto 0 (by simp)
        · refine (ih bs hlen).mpr fun j hj => ?_
          have h2 := hto (j + 1) (by simpa using Nat.succ_lt_succ hj)
          simpa using h2

theorem kmeansLoop_iters_eq_one_iff (pixels : List Pixel) (n : ℕ) (centers : List Pixel)
    (last : Option (List ℕ)) {fuel : ℕ} (hf : 2 ≤ fuel) :
    ((kmeansLoop pixels n centers last fuel).iters = 1 ↔
      allclose centers (updateCenters pixels (assignLabels pixels centers) centers n) = true) := by
  match fuel with
  | f + 2 =>
    by_cases hc : allclose centers
        (updateCenters pixels (assignLabels pixels centers) centers n) = true
    · simp [kmeansLoop, hc]
    · have h1 : 1 ≤ (kmeansLoop pixels n
          (updateCenters pixels (assignLabels pixels centers) centers n)
          (some (assignLabels pixels centers)) (f + 1)).iters :=
        kmeansLoop_one_le_iters pixels n _ _ (by omega)
      simp only [kmeansLoop, if_neg hc]
      show (kmeansLoop pixels n (updateCenters pixels (assignLabels pixels centers) centers n)
          (some (assignLabels pixels centers)) (f + 1)).iters + 1 = 1 ↔
        allclose centers (updateCenters pixels (assignLabels pixels centers) centers n) = true
      constructor
      · intro h2
        omega
      · intro h2
        exact absurd h2 hc

theorem lastIterStart_length (pixels : List Pixel) {n : ℕ} :
    ∀ (fuel : ℕ) (centers : List Pixel), centers.length = n →
      (lastIterStart pixels n centers fuel).length = n := by
  intro fuel
  induction fuel with
  | zero => intro centers h; exact h
  | succ fuel ih =>
    intro centers h
    simp only [lastIterStart]
    split
    · exact h
    · split
      · exact h
      · exact ih _ (updateCenters_length pixels _ centers n)

theorem kmeansLoop_last_spec (pixels : List Pixel) (n : ℕ) :
    ∀ (fuel : ℕ) (centers : List Pixel) (last : Option (List ℕ)), 1 ≤ fuel →
      (kmeansLoop pixels n centers last fuel).labels =
        some (assignLabels pixels (lastIterStart pixels n centers fuel)) ∧
      ((allclose (lastIterStart pixels n centers fuel)
          (updateCenters pixels (assignLabels pixels (lastIterStart pixels n centers fuel))
            (lastIterStart pixels n centers fuel) n) = true ∧
        (kmeansLoop pixels n centers last fuel).centers =
          lastIterStart pixels n centers fuel) ∨
       (allclose (lastIterStart pixels n centers fuel)
          (updateCenters pixels (assignLabels pixels (lastIterStart pixels n centers fuel))
            (lastIterStart pixels n centers fuel) n) = false ∧
        (kmeansLoop pixels n centers last fuel).centers =
          updateCenters pixels (assignLabels pixels (lastIterStart pixels n centers fuel))
            (lastIterStart pixels n centers fuel) n)) := by
  intro fuel
  induction fuel with
  | zero => intro centers last h; omega
  | succ f ih =>
    intro centers last _
    by_cases hc : allclose centers
        (updateCenters pixels (assignLabels pixels centers) centers n) = true
    · have hL : lastIterStart pixels n centers (f + 1) = centers := by
        simp [lastIterStart, hc]
      rw [hL]
      constructor
      · simp [kmeansLoop, hc]
      · left
        refine ⟨hc, ?_⟩
        simp [kmeansLoop, hc]
    · have hcf : allclose centers
          (updateCenters pixels (assignLabels pixels centers) centers n) = false :=
        Bool.eq_false_iff.mpr hc
      match f with
      | 0 =>
        have hL : lastIterStart pixels n centers 1 = centers := by
          simp [lastIterStart, hc]
        rw [hL]
        constructor
        · simp [kmeansLoop, hc]
        · right
          refine ⟨hcf, ?_⟩
          simp [kmeansLoop, hc]
      | f' + 1 =>
        have hL : lastIterStart pixels n centers (f' + 2) =
            lastIterStart pixels n
              (updateCenters pixels (assignLabels pixels centers) centers n) (f' + 1) := by
          simp [lastIterStart, hc]
        have ihh := ih (updateCenters pixels (assignLabels pixels centers) centers n)
          (some (assignLabels pixels centers)) (by omega)
        rw [hL]
        constructor
        · rw [← ihh.1]
          simp [kmeansLoop, hc]
        · rcases ihh.2 with ⟨h1, h2⟩ | ⟨h1, h2⟩
          · left
            refine ⟨h1, ?_⟩
            rw [← h2]
            simp [kmeansLoop, hc]
          · right
            refine ⟨h1, ?_⟩
            rw [← h2]
            simp [kmeansLoop, hc]

theorem kmeans_some_spec {pixels : List Pixel} {k m s : ℕ} {cs : List Pixel} {ls : List ℕ}
    (hk : 1 ≤ k) (h : kmeans pixels k m s = some (cs, ls)) :
    ∃ c₀, kmeans_plusplus_init pixels k (defaultRng s) = some c₀ ∧ 1 ≤ m ∧
      ls = assignLabels pixels (lastIterStart pixels k c₀ m) ∧
      (lastIterStart pixels k c₀ m).length = k ∧
      ((allclose (lastIterStart pixels k c₀ m)
          (updateCenters pixels ls (lastIterStart pixels k c₀ m) k) = true ∧
        cs = lastIterStart pixels k c₀ m) ∨
       (allclose (lastIterStart pixels k c₀ m)
          (updateCenters pixels ls (lastIterStart pixels k c₀ m) k) = false ∧
        cs = updateCenters pixels ls (lastIterStart pixels k c₀ m) k)) := by
  rcases hinit : kmeans_plusplus_init pixels k (defaultRng s) with _ | c₀
  · simp [kmeans, hinit] at h
  · simp only [kmeans, hinit] at h
    rcases hlab : (kmeansLoop pixels k c₀ none m).labels with _ | ls'
    · simp [hlab] at h
    · simp only [hlab, Option.some.injEq, Prod.mk.injEq] at h
      obtain ⟨hcs, hls⟩ := h
      have hm : 1 ≤ m := by
        rcases m with _ | m'
        · simp [kmeansLoop] at hlab
        · omega
      obtain ⟨hlabels, hbranch⟩ := kmeansLoop_last_spec pixels k m c₀ none hm
      rw [hlab] at hlabels
      have hls' : ls' = assignLabels pixels (lastIterStart pixels k c₀ m) :=
        Option.some.inj hlabels
      have hlen : (lastIterStart pixels k c₀ m).length = k :=
        lastIterStart_length pixels m c₀ (kmeans_plusplus_init_some_spec hk hinit).1
      refine ⟨c₀, rfl, hm, ?_, hlen, ?_⟩
      · rw [← hls, hls']
      · rw [← hls, hls', ← hcs]
        exact hbranch

theorem extract_colors_eq (pixels : List Pixel) (n : ℕ) :
    extract_colors_from_image pixels n =
      Option.map (fun r => sortByPercentageDesc (aggregateResults r.1 r.2 n))
        (kmeans pixels n 100 42) := by
  rcases h : kmeans pixels n 100 42 with _ | ⟨centers, labels⟩
  · simp [extract_colors_from_image, h]
  · simp [extract_colors_from_image, h]

theorem range_map_sum_eq (k : ℕ) (f : ℕ → ℚ) :
    ((List.range k).map f).sum = ∑ j ∈ Finset.range k, f j := by
  induction k with
  | zero => simp
  | succ k ih =>
    rw [List.range_succ, List.map_append, List.sum_append, Finset.sum_range_succ, ih]
    simp

theorem count_sum_eq_length : ∀ (labels : List ℕ) (k : ℕ), (∀ x ∈ labels, x < k) →
    ∑ j ∈ Finset.range k, labels.count j = labels.length := by
  intro labels
  induction labels with
  | nil => intro k _; simp
  | cons x l ih =>
    intro k h
    have hx : x < k := h x (List.mem_cons_self x l)
    have hl : ∀ y ∈ l, y < k := fun y hy => h y (List.mem_cons_of_mem x hy)
    have e : ∀ j, (x :: l).count j = l.count j + if x = j then 1 else 0 := by
      intro j
      simp [List.count_cons]
    simp only [e]
    rw [Finset.sum_add_distrib, ih k hl,
      Finset.sum_ite_eq (Finset.range k) x fun _ => 1,
      if_pos (Finset.mem_range.mpr hx), List.length_cons]

theorem aggregate_percentage_sum (centers : List Pixel) (labels : List ℕ) (k : ℕ)
    (hlab : ∀ x ∈ labels, x < k) (h0 : labels ≠ []) :
    ((aggregateResults centers labels k).map fun c => c.percentage).sum = 100 := by
  have hlen0 : labels.length ≠ 0 := fun hh => h0 (List.length_eq_zero.mp hh)
  have htot : (labels.length : ℚ) ≠ 0 := Nat.cast_ne_zero.mpr hlen0
  rw [aggregateResults, List.map_map, range_map_sum_eq]
  have e : ∀ j, ((fun c => c.percentage) ∘ colorOfCluster centers labels labels.length) j =
      (labels.count j : ℚ) * (100 / (labels.length : ℚ)) := by
    intro j
    simp only [Function.comp, colorOfCluster]
    by_cases hc : 0 < labels.count j
    · rw [if_pos hc, div_mul_eq_mul_div, mul_div_assoc]
    · rw [if_neg hc]
      have hz : labels.count j = 0 := by omega
      rw [hz]
      simp
  rw [Finset.sum_congr rfl fun j _ => e j, ← Finset.sum_mul, ← Nat.cast_sum,
    count_sum_eq_length labels k hlab, mul_comm, div_mul_cancel₀ _ htot]

theorem hexDigitChar_mem_digits : ∀ n, n < 16 → hexDigitChar n ∈ hexDigitChars := by
  decide

theorem isHexColorString_hexColor (r g b : ℤ) : isHexColorString (hexColor r g b) := by
  refine ⟨rfl, rfl, ?_⟩
  intro ch hch
  have hdrop : (hexColor r g b).data.drop 1 =
      twoHex r.toNat ++ twoHex g.toNat ++ twoHex b.toNat := rfl
  rw [hdrop] at hch
  have h16 : ∀ n : ℕ, n / 16 % 16 < 16 ∧ n % 16 < 16 := fun n =>
    ⟨Nat.mod_lt _ (by norm_num), Nat.mod_lt _ (by norm_num)⟩
  rcases List.mem_append.mp hch with hm | hm
  · rcases List.mem_append.mp hm with hm2 | hm2
    · rcases List.mem_cons.mp hm2 with rfl | hm3
      · exact hexDigitChar_mem_digits _ (h16 r.toNat).1
      · rw [List.mem_singleton.mp hm3]
        exact hexDigitChar_mem_digits _ (h16 r.toNat).2
    · rcases List.mem_cons.mp hm2 with rfl | hm3
      · exact hexDigitChar_mem_digits _ (h16 g.toNat).1
      · rw [List.mem_singleton.mp hm3]
        exact hexDigitChar_mem_digits _ (h16 g.toNat).2
  · rcases List.mem_cons.mp hm with rfl | hm3
    · exact hexDigitChar_mem_digits _ (h16 b.toNat).1
    · rw [List.mem_singleton.mp hm3]
      exact hexDigitChar_mem_digits _ (h16 b.toNat).2

theorem kmeans_labels_spec {pixels : List Pixel} {k m s : ℕ} {cs : List Pixel} {ls : List ℕ}
    (hk : 1 ≤ k) (h : kmeans pixels k m s = some (cs, ls)) :
    ls.length = pixels.length ∧ ∀ x ∈ ls, x < k := by
  obtain ⟨c₀, _, _, hls, hClen, _⟩ := kmeans_some_spec hk h
  subst hls
  constructor
  · exact assignLabels_length pixels _
  · intro x hx
    rcases List.mem_map.mp hx with ⟨p, _, rfl⟩
    have hLne : lastIterStart pixels k c₀ m ≠ [] := by
      intro hnil
      rw [hnil] at hClen
      simp at hClen
      omega
    have h2 := argminList_lt
      (l := (lastIterStart pixels k c₀ m).map fun c => sqDist p c)
      (by simpa [List.map_eq_nil_iff] using hLne)
    rw [List.length_map, hClen] at h2
    exact h2

theorem kmeans_plusplus_init_head {pixels : List Pixel} {k : ℕ} {rng : Rng} {cs : List Pixel}
    (hne : pixels ≠ []) (h : kmeans_plusplus_init pixels k rng = some cs) :
    cs.get? 0 = pixels.get? ((rng.integers pixels.length).1) := by
  have hlen : 0 < pixels.length := List.length_pos.mpr hne
  have hidx : rng.stream rng.pos % pixels.length < pixels.length := Nat.mod_lt _ hlen
  simp only [kmeans_plusplus_init, Rng.integers, Rng.next] at h
  rw [List.get?_eq_get hidx] at h
  simp only at h
  obtain ⟨_, htake, _⟩ := kppRounds_some_spec pixels (k - 1) _ _ cs h
  have htake1 : cs.take 1 = [pixels.get ⟨rng.stream rng.pos % pixels.length, hidx⟩] := htake
  match cs, htake1 with
  | c :: cs', htake1 =>
    have hc : c = pixels.get ⟨rng.stream rng.pos % pixels.length, hidx⟩ := by
      have := htake1
      simp only [List.take_succ_cons, List.take_zero, List.cons.injEq] at this
      exact this.1
    show some c = pixels.get? ((rng.integers pixels.length).1)
    rw [hc]
    show _ = pixels.get? (rng.stream rng.pos % pixels.length)
    rw [List.get?_eq_get hidx]

/-- C1 counterexample: on the pixel set {(0,0,0), (0,0,0)} with k = 2, every pixel
coincides with the chosen first center and the squared-distance weights sum to zero,
yet `kmeans_plusplus_init` fails (`none`, modelling the NaN probabilities and the
`ValueError` raised by `rng.choice`) instead of falling back to a uniform distribution
and returning a center as the claim asserts. -/
theorem claim_C1_counterexample :
    (nearestDistances [((0:ℚ), 0, 0), (0, 0, 0)] [((0:ℚ), 0, 0)]).sum = 0 ∧
    kmeans_plusplus_init [((0:ℚ), 0, 0), (0, 0, 0)] 2 (defaultRng 0) = none := by
  decide

/-- C1 (corrected): when every pixel coincides with the one chosen center, the sum of
squared distances to the nearest center is zero and `kmeans_plusplus_init` does NOT
fall back to a uniform distribution: the division by the zero weight sum yields an
undefined (NaN) probability distribution and the draw fails, so the operation fails
(`none`) rather than returning a center. -/
theorem claim_C1 (c : Pixel) (pixels : List Pixel) (k : ℕ) (rng : Rng)
    (hne : pixels ≠ []) (hall : ∀ p ∈ pixels, p = c) (hk : 2 ≤ k) :
    kmeans_plusplus_init pixels k rng = none := by
  have hlen : 0 < pixels.length := List.length_pos.mpr hne
  have hidx : rng.stream rng.pos % pixels.length < pixels.length := Nat.mod_lt _ hlen
  simp only [kmeans_plusplus_init, Rng.integers, Rng.next]
  rw [List.get?_eq_get hidx]
  simp only
  have hc0 : pixels.get ⟨rng.stream rng.pos % pixels.length, hidx⟩ = c :=
    hall _ (List.get_mem pixels _ hidx)
  rw [hc0]
  obtain ⟨m, hm⟩ : ∃ m, k - 1 = m + 1 := ⟨k - 2, by omega⟩
  rw [hm, kppRounds_succ_eq]
  have hzero : ∀ d ∈ nearestDistances pixels [c], d = 0 := by
    intro d hd
    rcases List.mem_map.mp hd with ⟨p, hp, rfl⟩
    rw [hall p hp]
    simp [listMin, sqDist]
  rw [if_pos (List.sum_eq_zero hzero)]

/-- C1 witness: a concrete all-equal pixel set on which the amended claim applies. -/
theorem claim_C1_witness :
    kmeans_plusplus_init [((1:ℚ), 2, 3), (1, 2, 3), (1, 2, 3)] 4 (defaultRng 42) = none :=
  claim_C1 (1, 2, 3) [((1:ℚ), 2, 3), (1, 2, 3), (1, 2, 3)] 4 (defaultRng 42)
    (by decide) (by decide) (by decide)

/-- C2 (confirmed): in every update phase of `kmeans`, a cluster index with at least
one assigned pixel gets as its new center the componentwise mean of exactly the pixels
labelled with that index (a mean over a nonempty list, so the division is by a positive
count and no NaN/empty-mean can arise), and a cluster index with zero assigned pixels
keeps its center from the previous iteration. -/
theorem claim_C2 (pixels : List Pixel) (labels : List ℕ) (centers : List Pixel)
    (n j : ℕ) (hj : j < n) :
    (assignedPixels pixels labels j = [] →
      (updateCenters pixels labels centers n).getD j (0, 0, 0) = centers.getD j (0, 0, 0)) ∧
    (assignedPixels pixels labels j ≠ [] →
      0 < (assignedPixels pixels labels j).length ∧
      (updateCenters pixels labels centers n).getD j (0, 0, 0) =
        (((assignedPixels pixels labels j).map fun p => p.1).sum /
            ((assignedPixels pixels labels j).length : ℚ),
         ((assignedPixels pixels labels j).map fun p => p.2.1).sum /
            ((assignedPixels pixels labels j).length : ℚ),
         ((assignedPixels pixels labels j).map fun p => p.2.2).sum /
            ((assignedPixels pixels labels j).length : ℚ))) := by
  rw [updateCenters_getD pixels labels centers hj]
  constructor
  · intro h
    rw [if_neg fun hh => hh h]
  · intro h
    refine ⟨List.length_pos.mpr h, ?_⟩
    rw [if_pos h]
    rfl

/-- C2 witness: with pixels {(1,0,0), (3,0,0)} both labelled 0 the new center is their
mean (2,0,0); with no pixel labelled 0 the previous center (9,9,9) is kept. -/
theorem claim_C2_witness :
    (updateCenters [((1:ℚ), 0, 0), (3, 0, 0)] [0, 0] [((9:ℚ), 9, 9)] 1).getD 0 (0, 0, 0) =
      (2, 0, 0) ∧
    (updateCenters [((1:ℚ), 0, 0), (3, 0, 0)] [5, 5] [((9:ℚ), 9, 9)] 1).getD 0 (0, 0, 0) =
      (9, 9, 9) := by
  constructor
  · have h := (claim_C2 [((1:ℚ), 0, 0), (3, 0, 0)] [0, 0] [((9:ℚ), 9, 9)] 1 0 (by decide)).2
      (by decide)
    rw [h.2]
    decide
  · exact (claim_C2 [((1:ℚ), 0, 0), (3, 0, 0)] [5, 5] [((9:ℚ), 9, 9)] 1 0 (by decide)).1
      (by decide)

/-- C4 (confirmed): the `kmeans` loop is a total function of its inputs (it always
terminates) and executes at most its iteration budget: at the loop level the number of
executed assignment/update iterations is bounded by the remaining budget, and a full
`kmeans` invocation executes at most `max_iterations` iterations, stopping at the cap
even without convergence. -/
theorem claim_C4 :
    (∀ (pixels : List Pixel) (n fuel : ℕ) (centers : List Pixel) (last : Option (List ℕ)),
      (kmeansLoop pixels n centers last fuel).iters ≤ fuel) ∧
    (∀ (pixels : List Pixel) (k m s : ℕ), kmeansIterationCount pixels k m s ≤ m) := by
  constructor
  · intro pixels n fuel centers last
    exact kmeansLoop_iters_le pixels n fuel centers last
  · intro pixels k m s
    simp only [kmeansIterationCount]
    rcases h : kmeans_plusplus_init pixels k (defaultRng s) with _ | c₀
    · exact Nat.zero_le m
    · exact kmeansLoop_iters_le pixels k m c₀ none

/-- C5 counterexample: with pixels {(100,0,0), (100.001,0,0)} and single initial center
(100,0,0), the update moves the center by 1/2000 = 5·10⁻⁴ > 10⁻⁶, yet the loop stops
after this very first iteration (`iters = 1`), because the convergence test is
`np.allclose`'s mixed tolerance `|a−b| ≤ 1e-8 + 1e-5·|b|` (≈ 1.00002·10⁻³ here), not an
absolute tolerance on the order of 1e-6 — contradicting "if any component differs by
more than that absolute tolerance, the loop continues". -/
theorem claim_C5_counterexample :
    (kmeansLoop [((100:ℚ), 0, 0), (100 + 1/1000, 0, 0)] 1 [((100:ℚ), 0, 0)] none 100).iters
      = 1 ∧
    |(100:ℚ) - ((updateCenters [((100:ℚ), 0, 0), (100 + 1/1000, 0, 0)]
        (assignLabels [((100:ℚ), 0, 0), (100 + 1/1000, 0, 0)] [((100:ℚ), 0, 0)])
        [((100:ℚ), 0, 0)] 1).getD 0 (0, 0, 0)).1| > 1/1000000 := by
  constructor
  · decide
  · decide

/-- C5 (corrected): the loop stops right after an update phase exactly when every
component of every new center is within `np.allclose`'s default mixed tolerance
`|old − new| ≤ 1e-8 + 1e-5·|new|` of the previous center (a relative-dominated bound,
not a pure absolute tolerance on the order of 1e-6); if any component violates that
bound the loop continues. -/
theorem claim_C5 (pixels : List Pixel) (n : ℕ) (centers : List Pixel)
    (last : Option (List ℕ)) (fuel : ℕ) (hf : 2 ≤ fuel) (hc : centers.length = n) :
    ((kmeansLoop pixels n centers last fuel).iters = 1 ↔
      ∀ j, j < n →
        |(centers.getD j (0, 0, 0)).1 -
            ((updateCenters pixels (assignLabels pixels centers) centers n).getD j
              (0, 0, 0)).1| ≤
          atolQ + rtolQ * |((updateCenters pixels (assignLabels pixels centers) centers n).getD
            j (0, 0, 0)).1| ∧
        |(centers.getD j (0, 0, 0)).2.1 -
            ((updateCenters pixels (assignLabels pixels centers) centers n).getD j
              (0, 0, 0)).2.1| ≤
          atolQ + rtolQ * |((updateCenters pixels (assignLabels pixels centers) centers n).getD
            j (0, 0, 0)).2.1| ∧
        |(centers.getD j (0, 0, 0)).2.2 -
            ((updateCenters pixels (assignLabels pixels centers) centers n).getD j
              (0, 0, 0)).2.2| ≤
          atolQ + rtolQ * |((updateCenters pixels (assignLabels pixels centers) centers n).getD
            j (0, 0, 0)).2.2|) := by
  rw [kmeansLoop_iters_eq_one_iff pixels n centers last hf]
  rw [allclose_iff centers _ (by rw [hc, updateCenters_length])]
  rw [hc]
  exact forall_congr' fun j => imp_congr_right fun _ => closePix_iff _ _

/-- C5 witness: a concrete converging configuration on which the amended
characterization applies. -/
theorem claim_C5_witness :
    (kmeansLoop [((0:ℚ), 0, 0)] 1 [((0:ℚ), 0, 0)] none 2).iters = 1 :=
  (claim_C5 [((0:ℚ), 0, 0)] 1 [((0:ℚ), 0, 0)] none 2 (by norm_num) rfl).mpr (by decide)

/-- C7 (confirmed): clustering is deterministic.  In the embedding `kmeans` is a pure
function of (pixels, n_clusters, max_iterations, random_state) — the generator is
created afresh from the seed on every call — so equal seeds give identical centers and
labels; and `extract_colors_from_image` always invokes `kmeans` with the fixed defaults
`max_iterations = 100`, `random_state = 42`, so repeated extractions of the same pixel
array with the same `num_colors` return identical color lists. -/
theorem claim_C7 :
    (∀ (pixels : List Pixel) (k m s₁ s₂ : ℕ), s₁ = s₂ →
      kmeans pixels k m s₁ = kmeans pixels k m s₂) ∧
    (∀ (pixels : List Pixel) (n : ℕ),
      extract_colors_from_image pixels n =
        Option.map (fun r => sortByPercentageDesc (aggregateResults r.1 r.2 n))
          (kmeans pixels n 100 42)) :=
  ⟨fun _ _ _ _ _ h => by rw [h], extract_colors_eq⟩

/-- C7 witness: two runs from the same seed 42 agree on a concrete input. -/
theorem claim_C7_witness :
    kmeans [((0:ℚ), 0, 0), (3, 0, 0)] 2 100 42 = kmeans [((0:ℚ), 0, 0), (3, 0, 0)] 2 100 42 :=
  claim_C7.1 [((0:ℚ), 0, 0), (3, 0, 0)] 2 100 42 42 rfl

/-- C3 (confirmed): the assignment phase labels every pixel with the index of a
minimum-squared-distance center, in `[0, k)`, lowest index winning ties (every earlier
index has strictly larger distance); and the labels returned by `kmeans` form a
partition: one label per pixel (length equals the number of pixels) with every value
in `[0, k)`. -/
theorem claim_C3 :
    (∀ (pixels centers : List Pixel) (i : ℕ), centers ≠ [] → i < pixels.length →
      (assignLabels pixels centers).length = pixels.length ∧
      (assignLabels pixels centers).getD i 0 < centers.length ∧
      (∀ j, j < centers.length →
        sqDist (pixels.getD i (0, 0, 0))
            (centers.getD ((assignLabels pixels centers).getD i 0) (0, 0, 0)) ≤
          sqDist (pixels.getD i (0, 0, 0)) (centers.getD j (0, 0, 0))) ∧
      (∀ j, j < (assignLabels pixels centers).getD i 0 →
        sqDist (pixels.getD i (0, 0, 0))
            (centers.getD ((assignLabels pixels centers).getD i 0) (0, 0, 0)) <
          sqDist (pixels.getD i (0, 0, 0)) (centers.getD j (0, 0, 0)))) ∧
    (∀ (pixels : List Pixel) (k m s : ℕ) (cs : List Pixel) (ls : List ℕ),
      1 ≤ k → kmeans pixels k m s = some (cs, ls) →
      ls.length = pixels.length ∧ ∀ x ∈ ls, x < k) := by
  constructor
  · intro pixels centers i hcne hi
    have hform : (assignLabels pixels centers).getD i 0 =
        argminList (centers.map fun c => sqDist (pixels.getD i (0, 0, 0)) c) := by
      rw [assignLabels, map_getD pixels _ 0 (0, 0, 0) hi]
    have hDne : centers.map (fun c => sqDist (pixels.getD i (0, 0, 0)) c) ≠ [] := by
      simpa [List.map_eq_nil_iff] using hcne
    have hDlen : (centers.map fun c => sqDist (pixels.getD i (0, 0, 0)) c).length =
        centers.length := List.length_map centers _
    have hargLt : argminList (centers.map fun c => sqDist (pixels.getD i (0, 0, 0)) c) <
        centers.length := by
      have := argminList_lt hDne
      rwa [hDlen] at this
    refine ⟨assignLabels_length pixels centers, by rw [hform]; exact hargLt, ?_, ?_⟩
    · intro j hj
      have h1 := argminList_getD_le
        (l := centers.map fun c => sqDist (pixels.getD i (0, 0, 0)) c) j
        (by rwa [hDlen])
      rw [map_getD centers _ 0 (0, 0, 0) hargLt, map_getD centers _ 0 (0, 0, 0) hj] at h1
      rw [hform]
      exact h1
    · intro j hj
      rw [hform] at hj ⊢
      have h1 := argminList_getD_lt
        (l := centers.map fun c => sqDist (pixels.getD i (0, 0, 0)) c) j hj
      have hjlt : j < centers.length := lt_trans hj hargLt
      rw [map_getD centers _ 0 (0, 0, 0) hargLt, map_getD centers _ 0 (0, 0, 0) hjlt] at h1
      exact h1
  · intro pixels k m s cs ls hk h
    exact kmeans_labels_spec hk h

/-- C3 witness: concrete instances of the assignment characterization and of the
partition property of `kmeans` labels. -/
theorem claim_C3_witness :
    (assignLabels [((0:ℚ), 0, 0)] [((1:ℚ), 0, 0), ((0:ℚ), 0, 1)]).getD 0 0 < 2 ∧
    ([1, 0] : List ℕ).length = ([((0:ℚ), 0, 0), (3, 0, 0)] : List Pixel).length := by
  constructor
  · exact (claim_C3.1 [((0:ℚ), 0, 0)] [((1:ℚ), 0, 0), ((0:ℚ), 0, 1)] 0
      (by decide) (by decide)).2.1
  · exact (claim_C3.2 [((0:ℚ), 0, 0), (3, 0, 0)] 2 100 42 [((3:ℚ), 0, 0), (0, 0, 0)] [1, 0]
      (by decide) (by decide)).1

/-- C6 (confirmed): the aggregation reports, for cluster `j`, the percentage
`count[j] / total_pixels * 100` (with `0.0` for clusters with zero assigned pixels —
note both readings agree since `0 / total * 100 = 0`), the output list is a
permutation of the per-cluster results, and the reported percentages sum to exactly
100 (exact arithmetic; "within floating-point tolerance" in float64). -/
theorem claim_C6 (pixels : List Pixel) (k : ℕ) (centers : List Pixel) (labels : List ℕ)
    (hne : pixels ≠ []) (hk : 1 ≤ k) (h : kmeans pixels k 100 42 = some (centers, labels)) :
    extract_colors_from_image pixels k =
      some (sortByPercentageDesc (aggregateResults centers labels k)) ∧
    (sortByPercentageDesc (aggregateResults centers labels k)).Perm
      (aggregateResults centers labels k) ∧
    labels.length = pixels.length ∧
    (∀ j, j < k →
      ((aggregateResults centers labels k).getD j ⟨"", 0⟩).percentage =
        ((labels.count j : ℚ) / (pixels.length : ℚ)) * 100 ∧
      (labels.count j = 0 →
        ((aggregateResults centers labels k).getD j ⟨"", 0⟩).percentage = 0)) ∧
    ((sortByPercentageDesc (aggregateResults centers labels k)).map
      fun c => c.percentage).sum = 100 := by
  obtain ⟨hlablen, hbound⟩ := kmeans_labels_spec hk h
  have hlabne : labels ≠ [] := by
    intro hnil
    rw [hnil] at hlablen
    exact hne (List.length_eq_zero.mp hlablen.symm)
  refine ⟨?_, List.perm_insertionSort _ _, hlablen, ?_, ?_⟩
  · rw [extract_colors_eq, h]
    rfl
  · intro j hj
    have hgetD : (aggregateResults centers labels k).getD j ⟨"", 0⟩ =
        colorOfCluster centers labels labels.length j :=
      range_map_getD _ _ hj
    rw [hgetD]
    constructor
    · show (if 0 < labels.count j
          then ((labels.count j : ℚ) / (labels.length : ℚ)) * 100 else 0) = _
      rw [hlablen]
      by_cases hcnt : 0 < labels.count j
      · rw [if_pos hcnt]
      · rw [if_neg hcnt]
        have hz : labels.count j = 0 := by omega
        rw [hz]
        simp
    · intro h0
      show (if 0 < labels.count j
          then ((labels.count j : ℚ) / (labels.length : ℚ)) * 100 else 0) = 0
      rw [h0]
      simp
  · have hperm := (List.perm_insertionSort
      (fun a b => b.percentage ≤ a.percentage) (aggregateResults centers labels k)).map
        fun c => c.percentage
    rw [sortByPercentageDesc, hperm.sum_eq]
    exact aggregate_percentage_sum centers labels k hbound hlabne

/-- C6 witness: on a concrete two-pixel run the reported percentages sum to 100. -/
theorem claim_C6_witness :
    ((sortByPercentageDesc (aggregateResults [((3:ℚ), 0, 0), (0, 0, 0)] [1, 0] 2)).map
      fun c => c.percentage).sum = 100 :=
  (claim_C6 [((0:ℚ), 0, 0), (3, 0, 0)] 2 [((3:ℚ), 0, 0), (0, 0, 0)] [1, 0]
    (by decide) (by decide) (by decide)).2.2.2.2

/-- C8 (confirmed): each cluster's output color is its center truncated to integers,
clamped into [0,255] and hex-encoded as `'#'` followed by six lowercase hex digits, and
the returned list is sorted by percentage in descending order (ties in any order). -/
theorem claim_C8 (pixels : List Pixel) (k : ℕ) (centers : List Pixel) (labels : List ℕ)
    (h : kmeans pixels k 100 42 = some (centers, labels)) :
    extract_colors_from_image pixels k =
      some (sortByPercentageDesc (aggregateResults centers labels k)) ∧
    List.Sorted (fun a b => b.percentage ≤ a.percentage)
      (sortByPercentageDesc (aggregateResults centers labels k)) ∧
    (∀ j, j < k → ((aggregateResults centers labels k).getD j ⟨"", 0⟩).hex =
      hexColor (clamp255 (truncToInt (centers.getD j (0, 0, 0)).1))
        (clamp255 (truncToInt (centers.getD j (0, 0, 0)).2.1))
        (clamp255 (truncToInt (centers.getD j (0, 0, 0)).2.2))) ∧
    (∀ c ∈ sortByPercentageDesc (aggregateResults centers labels k),
      isHexColorString c.hex) ∧
    (∀ z : ℤ, 0 ≤ clamp255 z ∧ clamp255 z ≤ 255) := by
  haveI hTot : IsTotal ExtractedColor (fun a b => b.percentage ≤ a.percentage) :=
    ⟨fun a b => le_total b.percentage a.percentage⟩
  haveI hTrans : IsTrans ExtractedColor (fun a b => b.percentage ≤ a.percentage) :=
    ⟨fun _ _ _ hab hbc => le_trans hbc hab⟩
  refine ⟨?_, List.sorted_insertionSort _ _, ?_, ?_, ?_⟩
  · rw [extract_colors_eq, h]
    rfl
  · intro j hj
    have hgetD : (aggregateResults centers labels k).getD j ⟨"", 0⟩ =
        colorOfCluster centers labels labels.length j :=
      range_map_getD _ _ hj
    rw [hgetD]
    rfl
  · intro c hcmem
    have hmem2 : c ∈ aggregateResults centers labels k :=
      (List.perm_insertionSort _ _).subset hcmem
    rcases List.mem_map.mp hmem2 with ⟨j, _, rfl⟩
    exact isHexColorString_hexColor _ _ _
  · intro z
    exact ⟨le_max_left 0 _, max_le (by norm_num) (min_le_left 255 z)⟩

/-- C8 witness: a concrete extraction returning the sorted aggregated colors. -/
theorem claim_C8_witness :
    extract_colors_from_image [((0:ℚ), 0, 0), (3, 0, 0)] 2 =
      some (sortByPercentageDesc (aggregateResults [((3:ℚ), 0, 0), (0, 0, 0)] [1, 0] 2)) :=
  (claim_C8 [((0:ℚ), 0, 0), (3, 0, 0)] 2 [((3:ℚ), 0, 0), (0, 0, 0)] [1, 0] (by decide)).1

/-- C9 counterexample: the pixel set {(1,2,3), (1,2,3)} is nonempty and k = 2 satisfies
1 ≤ k ≤ |pixels|, yet `kmeans_plusplus_init` does not return k centers — it fails
(`none`, the NaN/ValueError path), refuting the claim as stated for every such input. -/
theorem claim_C9_counterexample :
    1 ≤ 2 ∧ 2 ≤ ([((1:ℚ), 2, 3), (1, 2, 3)] : List Pixel).length ∧
    kmeans_plusplus_init [((1:ℚ), 2, 3), (1, 2, 3)] 2 (defaultRng 7) = none := by
  refine ⟨by norm_num, by decide, by decide⟩

/-- C9 (corrected): under the additional hypothesis that the pixel set contains at
least k distinct pixel values (which rules out the zero-weight-sum failure), seeding
succeeds and returns exactly k centers, each of which is a pixel of the input, in
selection order, with the first center the pixel at the index drawn uniformly by the
supplied rng. -/
theorem claim_C9 (pixels : List Pixel) (k : ℕ) (rng : Rng)
    (hne : pixels ≠ []) (hk : 1 ≤ k) (hcard : k ≤ pixels.toFinset.card) :
    (kmeans_plusplus_init pixels k rng).isSome = true ∧
    ∀ cs, kmeans_plusplus_init pixels k rng = some cs →
      cs.length = k ∧ (∀ c ∈ cs, c ∈ pixels) ∧
      cs.get? 0 = pixels.get? ((rng.integers pixels.length).1) := by
  constructor
  · have hlen : 0 < pixels.length := List.length_pos.mpr hne
    have hidx : rng.stream rng.pos % pixels.length < pixels.length := Nat.mod_lt _ hlen
    simp only [kmeans_plusplus_init, Rng.integers, Rng.next]
    rw [List.get?_eq_get hidx]
    simp only
    obtain ⟨cs, hcs⟩ := kppRounds_success pixels (k - 1)
      [pixels.get ⟨rng.stream rng.pos % pixels.length, hidx⟩] _
      (by simp)
      (by
        intro c hc
        rw [List.mem_singleton.mp hc]
        exact List.get_mem pixels _ hidx)
      (by
        simp only [List.length_singleton]
        omega)
    rw [hcs]
    rfl
  · intro cs hcs
    obtain ⟨hlen, hmem⟩ := kmeans_plusplus_init_some_spec hk hcs
    exact ⟨hlen, hmem, kmeans_plusplus_init_head hne hcs⟩

/-- C9 witness: a concrete seeding run with two distinct pixels and k = 2. -/
theorem claim_C9_witness :
    (kmeans_plusplus_init [((0:ℚ), 0, 0), (3, 0, 0)] 2 (defaultRng 42)).isSome = true ∧
    ([((3:ℚ), 0, 0), (0, 0, 0)] : List Pixel).length = 2 := by
  have h9 := claim_C9 [((0:ℚ), 0, 0), (3, 0, 0)] 2 (defaultRng 42)
    (by decide) (by norm_num) (by decide)
  exact ⟨h9.1, (h9.2 [((3:ℚ), 0, 0), (0, 0, 0)] (by decide)).1⟩

/-- C10 (confirmed): the labels `kmeans` returns are the nearest-center assignment
against the centers at the start of the last executed iteration (`lastIterStart`); on
the convergence-break path those centers are exactly the returned centers, while on the
budget-exhaustion path the returned centers are the once-more-updated new centers — and
then a returned label can fail to point to the pixel's nearest returned center, as on
the concrete six-pixel run in the second conjunct (pixel (10,0,0) keeps label 0 while
its nearest returned center is index 1). -/
theorem claim_C10 :
    (∀ (pixels : List Pixel) (k m s : ℕ) (c₀ cs : List Pixel) (ls : List ℕ),
      kmeans_plusplus_init pixels k (defaultRng s) = some c₀ →
      kmeans pixels k m s = some (cs, ls) →
      ls = assignLabels pixels (lastIterStart pixels k c₀ m) ∧
      (allclose (lastIterStart pixels k c₀ m)
          (updateCenters pixels ls (lastIterStart pixels k c₀ m) k) = true →
        cs = lastIterStart pixels k c₀ m) ∧
      (allclose (lastIterStart pixels k c₀ m)
          (updateCenters pixels ls (lastIterStart pixels k c₀ m) k) = false →
        cs = updateCenters pixels ls (lastIterStart pixels k c₀ m) k)) ∧
    ((kmeansLoop [((0:ℚ), 0, 0), (0, 0, 0), (0, 0, 0), (10, 0, 0), (12, 0, 0), (21, 0, 0)]
        2 [((0:ℚ), 0, 0), (21, 0, 0)] none 1).labels = some [0, 0, 0, 0, 1, 1] ∧
     (kmeansLoop [((0:ℚ), 0, 0), (0, 0, 0), (0, 0, 0), (10, 0, 0), (12, 0, 0), (21, 0, 0)]
        2 [((0:ℚ), 0, 0), (21, 0, 0)] none 1).centers = [((5:ℚ)/2, 0, 0), (33/2, 0, 0)] ∧
     assignLabels [((0:ℚ), 0, 0), (0, 0, 0), (0, 0, 0), (10, 0, 0), (12, 0, 0), (21, 0, 0)]
        [((5:ℚ)/2, 0, 0), (33/2, 0, 0)] = [0, 0, 0, 1, 1, 1]) := by
  constructor
  · intro pixels k m s c₀ cs ls hinit h
    simp only [kmeans, hinit] at h
    rcases hlab : (kmeansLoop pixels k c₀ none m).labels with _ | ls'
    · simp [hlab] at h
    · simp only [hlab, Option.some.injEq, Prod.mk.injEq] at h
      obtain ⟨hcs, hls⟩ := h
      have hm : 1 ≤ m := by
        rcases m with _ | m'
        · simp [kmeansLoop] at hlab
        · omega
      obtain ⟨hlabels, hbranch⟩ := kmeansLoop_last_spec pixels k m c₀ none hm
      rw [hlab] at hlabels
      have hls' := Option.some.inj hlabels
      subst hls
      subst hls'
      refine ⟨rfl, ?_, ?_⟩
      · intro htrue
        rcases hbranch with ⟨_, h2⟩ | ⟨h1, _⟩
        · rw [← hcs, h2]
        · rw [h1] at htrue
          cases htrue
      · intro hfalse
        rcases hbranch with ⟨h1, _⟩ | ⟨_, h2⟩
        · rw [h1] at hfalse
          cases hfalse
        · rw [← hcs, h2]
  · refine ⟨by decide, by decide, by decide⟩

/-- C10 witness: the structural characterization applied to a concrete converging run
(seed 42, two pixels): the returned labels are the assignment against the
start-of-last-iteration centers. -/
theorem claim_C10_witness :
    ([1, 0] : List ℕ) = assignLabels [((0:ℚ), 0, 0), (3, 0, 0)]
      (lastIterStart [((0:ℚ), 0, 0), (3, 0, 0)] 2 [((3:ℚ), 0, 0), (0, 0, 0)] 100) :=
  (claim_C10.1 [((0:ℚ), 0, 0), (3, 0, 0)] 2 100 42 [((3:ℚ), 0, 0), (0, 0, 0)]
    [((3:ℚ), 0, 0), (0, 0, 0)] [1, 0] (by decide) (by decide)).1

end Colors

